import Mathlib

/-!
Verification of the ring-buffer ("FIFO") core of `examples/fifo_output.c`.

The C code's `uint` fields are modelled as `Nat` with explicit wrap-around
(`% 2^32`) at the arithmetic operations where C's unsigned semantics can
differ from `Nat` arithmetic.  The backing byte array `data` is modelled as
a total map `Nat → Nat` indexed by storage position; all positions the code
touches are below `siz`.  A `(pointer, length)` byte-block argument is
modelled as a `List Nat`.
-/

/-- `2^32`, the modulus of the C `uint` type. -/
def U32 : Nat := 4294967296

/-- C unsigned 32-bit subtraction `a - b` (wrapping), for `a b < U32`. -/
def usub32 (a b : Nat) : Nat := (a + (U32 - b)) % U32

/-- The `struct fifo_t` of `fifo_output.c` (lines 70-77), without the mutex
pointer (the lock discipline is modelled separately by `LFifo`). -/
structure Fifo where
  rp : Nat
  wp : Nat
  siz : Nat
  used : Nat
  data : Nat → Nat

/-- Well-formedness of a fifo state: exactly the field constraints of the
spec's data model (§3): `used ≤ capacity`, both cursors in `[0, capacity)`,
`write_pos = (read_pos + used) % capacity`; plus the bound `capacity < 2^32`
forced by the C `uint siz` field. -/
def wf (f : Fifo) : Prop :=
  f.rp < f.siz ∧ f.wp < f.siz ∧ f.used ≤ f.siz ∧
    f.wp = (f.rp + f.used) % f.siz ∧ f.siz < U32

instance (f : Fifo) : Decidable (wf f) := by
  unfold wf; infer_instance

/-- `init_fifo` (lines 86-94): unconditionally initializes all fields;
it has no failure path (`void` return, no validation of `siz` or `rawbuf`). -/
def init_fifo (siz : Nat) (rawbuf : Nat → Nat) : Fifo :=
  { rp := 0, wp := 0, siz := siz, used := 0, data := rawbuf }

/-- The byte-copy loop of `fifo_wblock` (lines 138-143): store each source
byte at `wp`, increment `wp`, wrap to 0 on reaching `siz`.  Returns the
updated storage map and the final `wp`. -/
def writeLoop (data : Nat → Nat) (wp siz : Nat) : List Nat → (Nat → Nat) × Nat
  | [] => (data, wp)
  | b :: rest =>
      let d := fun i => if i = wp then b else data i
      let wp1 := wp + 1
      let wp2 := if wp1 = siz then 0 else wp1
      writeLoop d wp2 siz rest

/-- The byte-copy loop of `fifo_rblock` (lines 172-177): read each byte at
`rp`, increment `rp`, wrap to 0 on reaching `siz`.  Returns the bytes read
and the final `rp`. -/
def readLoop (data : Nat → Nat) (rp siz : Nat) : Nat → List Nat × Nat
  | 0 => ([], rp)
  | len + 1 =>
      let b := data rp
      let rp1 := rp + 1
      let rp2 := if rp1 = siz then 0 else rp1
      let r := readLoop data rp2 siz len
      (b :: r.1, r.2)

/-- `fifo_wblock` (lines 120-151).  The source block is the list `src`
(its length is the C `len` argument).  The space check
`(fifo->siz - fifo->used) < len` uses C unsigned subtraction, and
`fifo->used += len` is wrapping addition; both are modelled explicitly.
Returns the new state and the C return value `done`. -/
def fifo_wblock (f : Fifo) (src : List Nat) : Fifo × Nat :=
  if usub32 f.siz f.used < src.length then
    (f, 0)
  else
    let r := writeLoop f.data f.wp f.siz src
    ({ f with data := r.1, wp := r.2, used := (f.used + src.length) % U32 },
      src.length)

/-- `fifo_rblock` (lines 157-184).  Returns the new state, the bytes copied
out to `dest`, and the C return value `done`.  `fifo->used -= len` is
wrapping subtraction, modelled by `usub32`. -/
def fifo_rblock (f : Fifo) (len : Nat) : Fifo × List Nat × Nat :=
  if f.used < len then
    (f, [], 0)
  else
    let r := readLoop f.data f.rp f.siz len
    ({ f with rp := r.2, used := usub32 f.used len }, r.1, len)

/-- The value returned by `fifo_used` (lines 112-116): `fifo->used`.
(The function also leaks the mutex; that aspect is modelled by
`fifo_used_L` below.) -/
def fifo_used_val (f : Fifo) : Nat := f.used

/-- Abstraction function: the sequence of bytes logically held, oldest
first — positions `rp, rp+1, …, rp+used-1` taken modulo `siz`. -/
def contentsOf (f : Fifo) : List Nat :=
  (List.range f.used).map (fun i => f.data ((f.rp + i) % f.siz))

/-! ### Operation sequences -/

/-- A single ring-buffer operation: a `fifo_wblock` of a byte block or a
`fifo_rblock` of a requested length. -/
inductive FifoOp where
  | write (src : List Nat)
  | read (len : Nat)

/-- State after one operation. -/
def runOp (f : Fifo) : FifoOp → Fifo
  | .write src => (fifo_wblock f src).1
  | .read len => (fifo_rblock f len).1

/-- State after a sequence of operations. -/
def runOps (f : Fifo) : List FifoOp → Fifo
  | [] => f
  | op :: rest => runOps (runOp f op) rest

/-- Sum of the lengths accepted by the writes of a sequence (each write
contributes its `fifo_wblock` return value: `len` if accepted, 0 if
rejected). -/
def acceptedW (f : Fifo) : List FifoOp → Nat
  | [] => 0
  | op :: rest =>
      (match op with
        | .write src => (fifo_wblock f src).2
        | .read _ => 0) + acceptedW (runOp f op) rest

/-- Sum of the lengths accepted by the reads of a sequence. -/
def acceptedR (f : Fifo) : List FifoOp → Nat
  | [] => 0
  | op :: rest =>
      (match op with
        | .write _ => 0
        | .read len => (fifo_rblock f len).2.2) + acceptedR (runOp f op) rest

/-! ### Round-trip -/

/-- Write a sequence of blocks in turn. -/
def writeAll (f : Fifo) : List (List Nat) → Fifo
  | [] => f
  | s :: rest => writeAll (fifo_wblock f s).1 rest

/-- Read a sequence of chunk sizes in turn; collects all bytes returned,
in order. -/
def readAll (f : Fifo) : List Nat → Fifo × List Nat
  | [] => (f, [])
  | d :: rest =>
      let r := fifo_rblock f d
      let r2 := readAll r.1 rest
      (r2.1, r.2.1 ++ r2.2)

/-- Each block of the sequence is accepted by `fifo_wblock` at its call
time (the call returns the block's full length). -/
def writesAccepted (f : Fifo) : List (List Nat) → Bool
  | [] => true
  | s :: rest =>
      ((fifo_wblock f s).2 == s.length) &&
        writesAccepted (fifo_wblock f s).1 rest

/-- Each requested chunk size is at most the amount held at its call
time. -/
def readsFit (f : Fifo) : List Nat → Bool
  | [] => true
  | d :: rest => decide (d ≤ f.used) && readsFit (fifo_rblock f d).1 rest

/-! ### The drain controller (`membuf_flush`) -/

/-- Observable events `membuf_flush` produces on the output file: a chunk
successfully handed to `fwrite`, the fatal diagnostic for a failed fifo
read (line 207), or the fatal diagnostic for a failed `fwrite`
(line 211). -/
inductive Ev where
  | chunk (bytes : List Nat)
  | fatalRead
  | fatalWrite
  deriving DecidableEq

/-- `MEMBUF_CHUNKS` (line 196). -/
def MEMBUF_CHUNKS : Nat := 4096

/-- The `while (remsiz)` loop of `membuf_flush` (lines 202-216).
`sinkOk j` tells whether the `fwrite` of the `j`-th chunk of this drain
accepts all its bytes (a short `fwrite` count is failure, per line 210);
it closes the external file-system behaviour.  On a read shortfall or a
sink failure the loop prints the fatal diagnostic and returns
immediately. -/
def flushLoop (sinkOk : Nat → Bool) (f : Fifo) (remsiz k : Nat) :
    Fifo × List Ev :=
  if h0 : remsiz = 0 then (f, [])
  else
    let oneshot := if MEMBUF_CHUNKS < remsiz then MEMBUF_CHUNKS else remsiz
    let r := fifo_rblock f oneshot
    if r.2.2 ≠ oneshot then (r.1, [Ev.fatalRead])
    else if sinkOk k = false then (r.1, [Ev.fatalWrite])
    else
      let rest := flushLoop sinkOk r.1 (remsiz - oneshot) (k + 1)
      (rest.1, Ev.chunk r.2.1 :: rest.2)
termination_by remsiz
decreasing_by
  simp only [MEMBUF_CHUNKS]
  split <;> omega

/-- `membuf_flush` (lines 197-218): queries `fifo_used` once into the
local `remsiz`, then runs the loop (decrementing `remsiz` locally). -/
def membuf_flush (sinkOk : Nat → Bool) (f : Fifo) : Fifo × List Ev :=
  flushLoop sinkOk f (fifo_used_val f) 0

/-- The bytes delivered to the sink: concatenation of the chunk events. -/
def deliveredOf : List Ev → List Nat
  | [] => []
  | Ev.chunk b :: rest => b ++ deliveredOf rest
  | Ev.fatalRead :: rest => deliveredOf rest
  | Ev.fatalWrite :: rest => deliveredOf rest

/-! ### The output callback (`custom_output_callback`) -/

/-- `custom_output_callback` (lines 220-236): stores the newline
terminator (`*msg->p = newline`, line 225; the message block is thus the
body followed by byte 10 and `msglen = (msg->p - msg->buf) + 1`,
line 227); attempts exactly one `fifo_wblock` of the whole block; if the
write returns less than `msglen` the message is dropped and the function
returns at once (no drain, no retry, no error report); otherwise it
synchronously calls `membuf_flush`. -/
def custom_output_callback (sinkOk : Nat → Bool) (f : Fifo)
    (msgbody : List Nat) : Fifo × List Ev :=
  let msgbuf := msgbody ++ [10]
  let r := fifo_wblock f msgbuf
  if r.2 ≠ msgbuf.length then (r.1, [])
  else membuf_flush sinkOk r.1

/-! ### The mutex discipline -/

/-- A fifo together with its mutex state: `lock` counts how many times
the critical section has been entered and not left (a Windows
CRITICAL_SECTION is re-entrant for its owner, hence a count). -/
structure LFifo where
  lock : Nat
  fifo : Fifo

/-- `diag_os_lock` (lines 57-61). -/
def diag_os_lock (s : LFifo) : LFifo := { s with lock := s.lock + 1 }

/-- `diag_os_unlock` (lines 63-67). -/
def diag_os_unlock (s : LFifo) : LFifo := { s with lock := s.lock - 1 }

/-- `fifo_used` (lines 112-116) at the mutex level: it locks the mutex,
then `return fifo->used;` (line 114) exits the function; the
`diag_os_unlock` on line 115 sits after the `return` and is dead code,
so it never executes. -/
def fifo_used_L (s : LFifo) : LFifo × Nat :=
  let s1 := diag_os_lock s
  (s1, s1.fifo.used)

/-- `fifo_wblock` (lines 120-151) at the mutex level: lock, do the
work, unlock at the `exit:` label on every path, return. -/
def fifo_wblock_L (s : LFifo) (src : List Nat) : LFifo × Nat :=
  let s1 := diag_os_lock s
  let r := fifo_wblock s1.fifo src
  (diag_os_unlock { s1 with fifo := r.1 }, r.2)

/-- `fifo_rblock` (lines 157-184) at the mutex level: lock, do the
work, unlock at the `exit:` label on every path, return. -/
def fifo_rblock_L (s : LFifo) (len : Nat) : LFifo × List Nat × Nat :=
  let s1 := diag_os_lock s
  let r := fifo_rblock s1.fifo len
  (diag_os_unlock { s1 with fifo := r.1 }, r.2)

/-! ### Construction -/

/-- Modelled from the spec (§4.1): "Fails (construction error) if
capacity is zero or storage length mismatches capacity."  The C
`init_fifo` receives only a raw pointer carrying no length, so the
storage length is an explicit `storageLen` argument here. -/
def init_fifo_spec (siz storageLen : Nat) (rawbuf : Nat → Nat) :
    Option Fifo :=
  if siz = 0 ∨ storageLen ≠ siz then none
  else some (init_fifo siz rawbuf)

/-! ### Basic arithmetic and loop lemmas -/

lemma usub32_eq_sub (a b : Nat) (hb : b ≤ a) (ha : a < U32) :
    usub32 a b = a - b := by
  unfold usub32 U32 at *
  omega

lemma wrap_succ (p siz : Nat) (h : p < siz) :
    (if p + 1 = siz then 0 else p + 1) = (p + 1) % siz := by
  by_cases hc : p + 1 = siz
  · simp [hc]
  · rw [if_neg hc, Nat.mod_eq_of_lt (by omega)]

lemma contentsOf_length (f : Fifo) : (contentsOf f).length = f.used := by
  simp [contentsOf]

lemma readLoop_spec (len : Nat) :
    ∀ (data : Nat → Nat) (rp siz : Nat), rp < siz →
      readLoop data rp siz len =
        ((List.range len).map (fun i => data ((rp + i) % siz)),
          (rp + len) % siz) := by
  induction len with
  | zero =>
      intro data rp siz h
      simp [readLoop, Nat.mod_eq_of_lt h]
  | succ n ih =>
      intro data rp siz h
      have hsiz : 0 < siz := lt_of_le_of_lt (Nat.zero_le _) h
      have h2 : (rp + 1) % siz < siz := Nat.mod_lt _ hsiz
      simp only [readLoop, wrap_succ rp siz h, ih data ((rp + 1) % siz) siz h2,
        Prod.mk.injEq]
      constructor
      · rw [List.range_succ_eq_map]
        simp only [List.map_cons, List.map_map]
        congr 1
        · rw [Nat.add_zero, Nat.mod_eq_of_lt h]
        · apply List.map_congr_left
          intro i _
          simp only [Function.comp, Nat.succ_eq_add_one]
          rw [Nat.mod_add_mod, show rp + 1 + i = rp + (i + 1) from by omega]
      · rw [Nat.mod_add_mod, show rp + 1 + n = rp + (n + 1) from by omega]

lemma writeLoop_wp (src : List Nat) :
    ∀ (data : Nat → Nat) (wp siz : Nat), wp < siz →
      (writeLoop data wp siz src).2 = (wp + src.length) % siz := by
  induction src with
  | nil =>
      intro data wp siz h
      simp [writeLoop, Nat.mod_eq_of_lt h]
  | cons b rest ih =>
      intro data wp siz h
      have hsiz : 0 < siz := lt_of_le_of_lt (Nat.zero_le _) h
      have h2 : (wp + 1) % siz < siz := Nat.mod_lt _ hsiz
      simp only [writeLoop, wrap_succ wp siz h]
      rw [ih _ ((wp + 1) % siz) siz h2, Nat.mod_add_mod, List.length_cons,
        show wp + 1 + rest.length = wp + (rest.length + 1) from by omega]

lemma range_mod_ne (rp i used siz : Nat) (hi : i < used) (hu : used < siz) :
    (rp + i) % siz ≠ (rp + used) % siz := by
  intro h
  have hme : i ≡ used [MOD siz] := Nat.ModEq.add_left_cancel' rp h
  have h1 : i % siz = used % siz := hme
  rw [Nat.mod_eq_of_lt (by omega), Nat.mod_eq_of_lt hu] at h1
  omega

lemma writeLoop_data (src : List Nat) :
    ∀ (data : Nat → Nat) (rp used siz : Nat),
      rp < siz → used + src.length ≤ siz →
      ∀ i, i < used + src.length →
        (writeLoop data ((rp + used) % siz) siz src).1 ((rp + i) % siz) =
          if i < used then data ((rp + i) % siz) else src.getD (i - used) 0 := by
  induction src with
  | nil =>
      intro data rp used siz hrp hle i hi
      simp only [writeLoop]
      rw [if_pos (by simpa using hi)]
  | cons b rest ih =>
      intro data rp used siz hrp hle i hi
      have hsiz : 0 < siz := lt_of_le_of_lt (Nat.zero_le _) hrp
      have hwp : (rp + used) % siz < siz := Nat.mod_lt _ hsiz
      have hused : used < siz := by
        simp only [List.length_cons] at hle; omega
      simp only [writeLoop, wrap_succ _ siz hwp, Nat.mod_add_mod]
      rw [show rp + used + 1 = rp + (used + 1) from by omega]
      have hle' : (used + 1) + rest.length ≤ siz := by
        simp only [List.length_cons] at hle; omega
      have hi' : i < (used + 1) + rest.length := by
        simp only [List.length_cons] at hi; omega
      rw [ih _ rp (used + 1) siz hrp hle' i hi']
      by_cases hc : i < used
      · rw [if_pos (by omega), if_pos hc,
          if_neg (range_mod_ne rp i used siz hc hused)]
      · rw [if_neg hc]
        by_cases hc2 : i = used
        · subst hc2
          simp
        · rw [if_neg (by omega),
            show i - used = (i - (used + 1)) + 1 from by omega,
            List.getD_cons_succ]

/-! ### Characterization of `fifo_wblock` and `fifo_rblock` -/

lemma fifo_wblock_reject (f : Fifo) (src : List Nat) (hwf : wf f)
    (h : f.siz - f.used < src.length) : fifo_wblock f src = (f, 0) := by
  obtain ⟨h1, h2, h3, h4, h5⟩ := hwf
  unfold fifo_wblock
  rw [usub32_eq_sub _ _ h3 h5, if_pos h]

lemma fifo_wblock_accept (f : Fifo) (src : List Nat) (hwf : wf f)
    (h : src.length ≤ f.siz - f.used) :
    fifo_wblock f src =
      ({ f with data := (writeLoop f.data f.wp f.siz src).1,
                wp := (f.wp + src.length) % f.siz,
                used := f.used + src.length }, src.length) := by
  obtain ⟨h1, h2, h3, h4, h5⟩ := hwf
  unfold fifo_wblock
  rw [usub32_eq_sub _ _ h3 h5, if_neg (by omega)]
  simp only [writeLoop_wp src f.data f.wp f.siz h2]
  rw [Nat.mod_eq_of_lt (show f.used + src.length < U32 from by
    unfold U32 at *; omega)]

lemma fifo_wblock_contents (f : Fifo) (src : List Nat) (hwf : wf f)
    (h : src.length ≤ f.siz - f.used) :
    contentsOf (fifo_wblock f src).1 = contentsOf f ++ src := by
  obtain ⟨h1, h2, h3, h4, h5⟩ := hwf
  rw [fifo_wblock_accept f src ⟨h1, h2, h3, h4, h5⟩ h]
  apply List.ext_getElem
  · simp [contentsOf]
  · intro i hi1 hi2
    simp only [contentsOf, List.getElem_map, List.getElem_range]
    simp only [contentsOf, List.length_map, List.length_range] at hi1
    have hkey := writeLoop_data src f.data f.rp f.used f.siz h1 (by omega) i hi1
    rw [← h4] at hkey
    rw [hkey]
    by_cases hc : i < f.used
    · rw [if_pos hc, List.getElem_append_left (by simpa [contentsOf] using hc)]
      simp [contentsOf]
    · rw [if_neg hc,
        List.getElem_append_right (by simp [contentsOf]; omega)]
      rw [List.getD_eq_getElem _ _ (by omega)]
      simp only [contentsOf, List.length_map, List.length_range]

lemma fifo_wblock_wf (f : Fifo) (src : List Nat) (hwf : wf f) :
    wf (fifo_wblock f src).1 := by
  obtain ⟨h1, h2, h3, h4, h5⟩ := hwf
  have hsiz : 0 < f.siz := by omega
  by_cases h : f.siz - f.used < src.length
  · rw [fifo_wblock_reject f src ⟨h1, h2, h3, h4, h5⟩ h]
    exact ⟨h1, h2, h3, h4, h5⟩
  · rw [fifo_wblock_accept f src ⟨h1, h2, h3, h4, h5⟩ (by omega)]
    dsimp only [wf]
    refine ⟨h1, Nat.mod_lt _ hsiz, by omega, ?_, h5⟩
    simp only [h4, Nat.mod_add_mod]
    rw [show f.rp + f.used + src.length = f.rp + (f.used + src.length) from by
      omega]

lemma fifo_rblock_reject (f : Fifo) (len : Nat) (h : f.used < len) :
    fifo_rblock f len = (f, [], 0) := by
  unfold fifo_rblock
  rw [if_pos h]

lemma fifo_rblock_accept (f : Fifo) (len : Nat) (hwf : wf f)
    (h : len ≤ f.used) :
    fifo_rblock f len =
      ({ f with rp := (f.rp + len) % f.siz, used := f.used - len },
        (contentsOf f).take len, len) := by
  obtain ⟨h1, h2, h3, h4, h5⟩ := hwf
  unfold fifo_rblock
  rw [if_neg (by omega), readLoop_spec len f.data f.rp f.siz h1,
    usub32_eq_sub _ _ h (by omega)]
  simp only [contentsOf, Prod.mk.injEq, true_and, and_true]
  rw [← List.map_take, List.take_range, Nat.min_eq_left h]

lemma fifo_rblock_contents (f : Fifo) (len : Nat) (hwf : wf f)
    (h : len ≤ f.used) :
    contentsOf (fifo_rblock f len).1 = (contentsOf f).drop len := by
  obtain ⟨h1, h2, h3, h4, h5⟩ := hwf
  rw [fifo_rblock_accept f len ⟨h1, h2, h3, h4, h5⟩ h]
  apply List.ext_getElem
  · simp [contentsOf]
  · intro i hi1 hi2
    simp only [contentsOf, List.getElem_map, List.getElem_range,
      List.getElem_drop]
    rw [Nat.mod_add_mod, show f.rp + len + i = f.rp + (len + i) from by omega]

lemma fifo_rblock_wf (f : Fifo) (len : Nat) (hwf : wf f) :
    wf (fifo_rblock f len).1 := by
  obtain ⟨h1, h2, h3, h4, h5⟩ := hwf
  have hsiz : 0 < f.siz := by omega
  by_cases h : f.used < len
  · rw [fifo_rblock_reject f len h]
    exact ⟨h1, h2, h3, h4, h5⟩
  · rw [fifo_rblock_accept f len ⟨h1, h2, h3, h4, h5⟩ (by omega)]
    dsimp only [wf]
    refine ⟨Nat.mod_lt _ hsiz, h2, by omega, ?_, h5⟩
    simp only [h4, Nat.mod_add_mod]
    rw [show f.rp + len + (f.used - len) = f.rp + f.used from by omega]

/-- C1: `fifo_wblock` is all-or-nothing.  For every well-formed fifo state
and every input block `src` (of length `len`): if `capacity - used < len` it
returns 0 and leaves the state (including all stored bytes) unchanged;
otherwise it copies exactly `len` bytes into storage starting at `write_pos`
wrapping modulo `capacity`, advances `write_pos` modulo `capacity`,
increments `used` by `len`, leaves `read_pos` unchanged and returns `len`. -/
theorem fifo_wblock_all_or_nothing (f : Fifo) (src : List Nat) (hwf : wf f) :
    (f.siz - f.used < src.length → fifo_wblock f src = (f, 0)) ∧
    (src.length ≤ f.siz - f.used →
      (fifo_wblock f src).2 = src.length ∧
      (fifo_wblock f src).1.rp = f.rp ∧
      (fifo_wblock f src).1.siz = f.siz ∧
      (fifo_wblock f src).1.used = f.used + src.length ∧
      (fifo_wblock f src).1.wp = (f.wp + src.length) % f.siz ∧
      contentsOf (fifo_wblock f src).1 = contentsOf f ++ src ∧
      (∀ j, j < src.length →
        (fifo_wblock f src).1.data ((f.wp + j) % f.siz) = src.getD j 0)) := by
  obtain ⟨h1, h2, h3, h4, h5⟩ := hwf
  constructor
  · exact fun h => fifo_wblock_reject f src ⟨h1, h2, h3, h4, h5⟩ h
  · intro h
    have hacc := fifo_wblock_accept f src ⟨h1, h2, h3, h4, h5⟩ h
    have hcont := fifo_wblock_contents f src ⟨h1, h2, h3, h4, h5⟩ h
    refine ⟨by rw [hacc], by rw [hacc], by rw [hacc], by rw [hacc],
      by rw [hacc], hcont, ?_⟩
    intro j hj
    rw [hacc]
    dsimp only
    have hkey := writeLoop_data src f.data f.rp f.used f.siz h1 (by omega)
      (f.used + j) (by omega)
    rw [if_neg (by omega), show f.used + j - f.used = j from by omega] at hkey
    rw [← h4] at hkey
    have harg : (f.wp + j) % f.siz = (f.rp + (f.used + j)) % f.siz := by
      rw [h4, Nat.mod_add_mod,
        show f.rp + f.used + j = f.rp + (f.used + j) from by omega]
    rw [harg]
    exact hkey

/-- C1 witness: the claim's own instance — with `capacity = 8` and
`used = 8`, a `fifo_wblock` of 1 byte returns 0 and leaves the state
(hence `used = 8`) unchanged. -/
theorem fifo_wblock_all_or_nothing_witness :
    fifo_wblock ⟨0, 0, 8, 8, fun _ => 0⟩ [42] =
      (⟨0, 0, 8, 8, fun _ => 0⟩, 0) :=
  (fifo_wblock_all_or_nothing ⟨0, 0, 8, 8, fun _ => 0⟩ [42]
    (by decide)).1 (by decide)

/-- C2: `fifo_rblock` is all-or-nothing.  For every well-formed fifo state
and requested length `len`: it succeeds iff `used ≥ len`; on rejection
(`used < len`) it reads nothing, changes nothing and returns 0; on success
it copies out exactly the oldest `len` bytes in their enqueue (FIFO) order
starting at `read_pos` wrapping modulo `capacity`, advances `read_pos`
modulo `capacity`, decrements `used` by `len`, and returns `len`. -/
theorem fifo_rblock_all_or_nothing (f : Fifo) (len : Nat) (hwf : wf f) :
    (f.used < len → fifo_rblock f len = (f, [], 0)) ∧
    (len ≤ f.used →
      (fifo_rblock f len).2.2 = len ∧
      (fifo_rblock f len).2.1 = (contentsOf f).take len ∧
      (fifo_rblock f len).1.rp = (f.rp + len) % f.siz ∧
      (fifo_rblock f len).1.wp = f.wp ∧
      (fifo_rblock f len).1.siz = f.siz ∧
      (fifo_rblock f len).1.used = f.used - len ∧
      (fifo_rblock f len).1.data = f.data ∧
      contentsOf (fifo_rblock f len).1 = (contentsOf f).drop len) := by
  obtain ⟨h1, h2, h3, h4, h5⟩ := hwf
  constructor
  · exact fun h => fifo_rblock_reject f len h
  · intro h
    have hacc := fifo_rblock_accept f len ⟨h1, h2, h3, h4, h5⟩ h
    have hcont := fifo_rblock_contents f len ⟨h1, h2, h3, h4, h5⟩ h
    exact ⟨by rw [hacc], by rw [hacc], by rw [hacc], by rw [hacc],
      by rw [hacc], by rw [hacc], by rw [hacc], hcont⟩

/-- C2 witness: on the state with `capacity = 4`, `read_pos = 1`,
`used = 3` and storage byte `10 + i` at position `i`, a read of 2 bytes
returns the two oldest bytes `[11, 12]` in order, returns count 2, and
leaves `used = 1`. -/
theorem fifo_rblock_all_or_nothing_witness :
    (fifo_rblock ⟨1, 0, 4, 3, fun i => i + 10⟩ 2).2.1 = [11, 12] ∧
    (fifo_rblock ⟨1, 0, 4, 3, fun i => i + 10⟩ 2).2.2 = 2 ∧
    (fifo_rblock ⟨1, 0, 4, 3, fun i => i + 10⟩ 2).1.used = 1 := by
  obtain ⟨hret, hout, -, -, -, hused, -, -⟩ :=
    (fifo_rblock_all_or_nothing ⟨1, 0, 4, 3, fun i => i + 10⟩ 2
      (by decide)).2 (by decide)
  refine ⟨?_, ?_, ?_⟩
  · rw [hout]
    decide
  · rw [hret]
  · rw [hused]
    decide


lemma fifo_wblock_siz (f : Fifo) (src : List Nat) :
    (fifo_wblock f src).1.siz = f.siz := by
  unfold fifo_wblock
  split <;> rfl

lemma fifo_rblock_siz (f : Fifo) (len : Nat) :
    (fifo_rblock f len).1.siz = f.siz := by
  unfold fifo_rblock
  split <;> rfl

lemma wblock_used_ret (f : Fifo) (src : List Nat) (hwf : wf f) :
    (fifo_wblock f src).1.used = f.used + (fifo_wblock f src).2 := by
  by_cases h : f.siz - f.used < src.length
  · rw [fifo_wblock_reject f src hwf h]
    rfl
  · rw [fifo_wblock_accept f src hwf (by omega)]

lemma rblock_used_ret (f : Fifo) (len : Nat) (hwf : wf f) :
    (fifo_rblock f len).1.used + (fifo_rblock f len).2.2 = f.used ∧
    (fifo_rblock f len).2.2 ≤ f.used := by
  by_cases h : f.used < len
  · rw [fifo_rblock_reject f len h]
    simp
  · rw [fifo_rblock_accept f len hwf (by omega)]
    dsimp only
    omega

lemma runOp_wf (f : Fifo) (op : FifoOp) (hwf : wf f) : wf (runOp f op) := by
  cases op with
  | write src => exact fifo_wblock_wf f src hwf
  | read len => exact fifo_rblock_wf f len hwf

lemma runOps_account (ops : List FifoOp) :
    ∀ f, wf f →
      wf (runOps f ops) ∧
      (runOps f ops).used + acceptedR f ops = f.used + acceptedW f ops ∧
      (runOps f ops).siz = f.siz := by
  induction ops with
  | nil =>
      intro f hwf
      exact ⟨hwf, by simp [runOps, acceptedW, acceptedR], rfl⟩
  | cons op rest ih =>
      intro f hwf
      have hwf1 : wf (runOp f op) := runOp_wf f op hwf
      obtain ⟨ha, hb, hc⟩ := ih (runOp f op) hwf1
      refine ⟨ha, ?_, ?_⟩
      · simp only [runOps, acceptedW, acceptedR]
        cases op with
        | write src =>
            have hstep := wblock_used_ret f src hwf
            simp only [runOp] at hb hstep ⊢
            omega
        | read len =>
            have hstep := rblock_used_ret f len hwf
            simp only [runOp] at hb hstep ⊢
            omega
      · simp only [runOps]
        rw [hc]
        cases op with
        | write src => exact fifo_wblock_siz f src
        | read len => exact fifo_rblock_siz f len

lemma init_fifo_wf (siz : Nat) (buf : Nat → Nat) (hpos : 0 < siz)
    (h32 : siz < U32) : wf (init_fifo siz buf) := by
  refine ⟨hpos, hpos, Nat.zero_le _, ?_, h32⟩
  simp [init_fifo]

lemma contentsOf_init (siz : Nat) (buf : Nat → Nat) :
    contentsOf (init_fifo siz buf) = [] := by
  simp [contentsOf, init_fifo]

/-- C3: for every sequence of `fifo_wblock`/`fifo_rblock` operations
starting from a freshly constructed fifo, the representation invariant
holds after every step (any prefix of a sequence is itself such a
sequence): `used` equals the accepted write lengths minus the accepted
read lengths (stated additively over `Nat`), `used ≤ capacity`,
`read_pos` and `write_pos` stay in `[0, capacity)`, and
`write_pos = (read_pos + used) % capacity`. -/
theorem fifo_invariant_preserved (siz : Nat) (buf : Nat → Nat)
    (hpos : 0 < siz) (h32 : siz < U32) (ops : List FifoOp) :
    (runOps (init_fifo siz buf) ops).used + acceptedR (init_fifo siz buf) ops
        = acceptedW (init_fifo siz buf) ops ∧
    (runOps (init_fifo siz buf) ops).used ≤ siz ∧
    (runOps (init_fifo siz buf) ops).rp < siz ∧
    (runOps (init_fifo siz buf) ops).wp < siz ∧
    (runOps (init_fifo siz buf) ops).wp =
      ((runOps (init_fifo siz buf) ops).rp +
        (runOps (init_fifo siz buf) ops).used) % siz := by
  obtain ⟨⟨w1, w2, w3, w4, w5⟩, hacc, hsiz⟩ :=
    runOps_account ops (init_fifo siz buf) (init_fifo_wf siz buf hpos h32)
  rw [hsiz] at w1 w2 w3 w4
  refine ⟨by simpa [init_fifo] using hacc, w3, w1, w2, w4⟩

/-- C3 witness: after `write [5,6,7]; read 2; write [8,9]` on a fresh
fifo of capacity 4, the accepted-write sum is 5, the accepted-read sum
is 2, and `used = 3` with the accounting equation holding. -/
theorem fifo_invariant_preserved_witness :
    (runOps (init_fifo 4 (fun _ => 0))
        [FifoOp.write [5, 6, 7], FifoOp.read 2, FifoOp.write [8, 9]]).used +
      acceptedR (init_fifo 4 (fun _ => 0))
        [FifoOp.write [5, 6, 7], FifoOp.read 2, FifoOp.write [8, 9]] =
      acceptedW (init_fifo 4 (fun _ => 0))
        [FifoOp.write [5, 6, 7], FifoOp.read 2, FifoOp.write [8, 9]] :=
  (fifo_invariant_preserved 4 (fun _ => 0) (by decide) (by decide)
    [FifoOp.write [5, 6, 7], FifoOp.read 2, FifoOp.write [8, 9]]).1


lemma writeAll_contents (ss : List (List Nat)) :
    ∀ f, wf f → writesAccepted f ss = true →
      wf (writeAll f ss) ∧
      contentsOf (writeAll f ss) = contentsOf f ++ ss.flatten := by
  induction ss with
  | nil =>
      intro f hwf _
      exact ⟨hwf, by simp [writeAll]⟩
  | cons s rest ih =>
      intro f hwf hacc
      simp only [writesAccepted, Bool.and_eq_true, beq_iff_eq] at hacc
      obtain ⟨hlen, hrest⟩ := hacc
      have hfit : s.length ≤ f.siz - f.used := by
        by_contra hc
        push_neg at hc
        rw [fifo_wblock_reject f s hwf hc] at hlen
        simp only [] at hlen
        omega
      have hwf1 := fifo_wblock_wf f s hwf
      have hcont := fifo_wblock_contents f s hwf hfit
      obtain ⟨ha, hb⟩ := ih (fifo_wblock f s).1 hwf1 hrest
      refine ⟨ha, ?_⟩
      simp only [writeAll]
      rw [hb, hcont, List.flatten_cons, List.append_assoc]

lemma readAll_output (ds : List Nat) :
    ∀ f, wf f → readsFit f ds = true →
      wf (readAll f ds).1 ∧
      (readAll f ds).2 = (contentsOf f).take ds.sum ∧
      contentsOf (readAll f ds).1 = (contentsOf f).drop ds.sum := by
  induction ds with
  | nil =>
      intro f hwf _
      exact ⟨hwf, by simp [readAll], by simp [readAll]⟩
  | cons d rest ih =>
      intro f hwf hfitall
      simp only [readsFit, Bool.and_eq_true, decide_eq_true_eq] at hfitall
      obtain ⟨hd, hrest⟩ := hfitall
      have hacc := fifo_rblock_accept f d hwf hd
      have hcont := fifo_rblock_contents f d hwf hd
      have hwf1 := fifo_rblock_wf f d hwf
      obtain ⟨ha, hb, hc⟩ := ih (fifo_rblock f d).1 hwf1 hrest
      refine ⟨by simpa [readAll] using ha, ?_, ?_⟩
      · simp only [readAll]
        rw [hb, hcont, show (fifo_rblock f d).2.1 = (contentsOf f).take d
            from by rw [hacc], List.sum_cons, List.take_add]
      · simp only [readAll]
        rw [hc, hcont, List.sum_cons, List.drop_drop, Nat.add_comm]

/-- C4: round-trip.  Starting from a fresh fifo, writing blocks
`S1, …, Sk` each accepted in turn, then reading chunk sizes that each fit
the amount then held and sum to the total held, yields exactly the
concatenation `S1 ++ … ++ Sk`, regardless of chunk boundaries and of
wrap-around. -/
theorem fifo_roundtrip (siz : Nat) (buf : Nat → Nat) (hpos : 0 < siz)
    (h32 : siz < U32) (ss : List (List Nat)) (ds : List Nat)
    (hw : writesAccepted (init_fifo siz buf) ss = true)
    (hr : readsFit (writeAll (init_fifo siz buf) ss) ds = true)
    (hsum : ds.sum = (writeAll (init_fifo siz buf) ss).used) :
    (readAll (writeAll (init_fifo siz buf) ss) ds).2 = ss.flatten := by
  have hwf0 := init_fifo_wf siz buf hpos h32
  obtain ⟨hwfW, hcontW⟩ := writeAll_contents ss (init_fifo siz buf) hwf0 hw
  rw [contentsOf_init, List.nil_append] at hcontW
  obtain ⟨-, hout, -⟩ := readAll_output ds (writeAll (init_fifo siz buf) ss)
    hwfW hr
  rw [hout, hcontW, hsum, ← hcontW]
  rw [show (writeAll (init_fifo siz buf) ss).used =
      (contentsOf (writeAll (init_fifo siz buf) ss)).length
    from (contentsOf_length _).symm, hcontW, List.take_length]

/-- C4 witness: capacity 4, writes `[1,2]` then `[3]` (each accepted),
reads of sizes 1 then 2 (each fitting, summing to the 3 bytes held)
return `[1,2,3] = [1,2] ++ [3]`. -/
theorem fifo_roundtrip_witness :
    (readAll (writeAll (init_fifo 4 (fun _ => 0)) [[1, 2], [3]])
      [1, 2]).2 = [1, 2, 3] :=
  fifo_roundtrip 4 (fun _ => 0) (by decide) (by decide) [[1, 2], [3]]
    [1, 2] (by decide) (by decide) (by decide)


lemma flushLoop_zero (sinkOk : Nat → Bool) (f : Fifo) (k : Nat) :
    flushLoop sinkOk f 0 k = (f, []) := by
  unfold flushLoop
  rfl

/-- Full characterization of the loop on a well-formed state whose
`remsiz` argument does not exceed `used`: some prefix of length `dl` of
the held bytes is delivered, a possible failed chunk of `fl` further
bytes is removed but not delivered, the final state holds the rest, no
read-shortfall diagnostic occurs, failure-free runs drain exactly
`remsiz`, and any sink failure ends the event list. -/
lemma flushLoop_spec (sinkOk : Nat → Bool) (remsiz : Nat) :
    ∀ (f : Fifo) (k : Nat), wf f → remsiz ≤ f.used →
      ∃ dl fl,
        dl + fl ≤ remsiz ∧
        (flushLoop sinkOk f remsiz k).1.used = f.used - (dl + fl) ∧
        contentsOf (flushLoop sinkOk f remsiz k).1 =
          (contentsOf f).drop (dl + fl) ∧
        wf (flushLoop sinkOk f remsiz k).1 ∧
        deliveredOf (flushLoop sinkOk f remsiz k).2 =
          (contentsOf f).take dl ∧
        Ev.fatalRead ∉ (flushLoop sinkOk f remsiz k).2 ∧
        (Ev.fatalWrite ∉ (flushLoop sinkOk f remsiz k).2 →
          fl = 0 ∧ dl = remsiz) ∧
        (Ev.fatalWrite ∈ (flushLoop sinkOk f remsiz k).2 →
          0 < fl ∧ (∃ j, k ≤ j ∧ sinkOk j = false) ∧
          ∃ cs, (flushLoop sinkOk f remsiz k).2 = cs ++ [Ev.fatalWrite] ∧
            ∀ e ∈ cs, ∃ b, e = Ev.chunk b) := by
  induction remsiz using Nat.strong_induction_on with
  | _ remsiz ih =>
    intro f k hwf hle
    by_cases h0 : remsiz = 0
    · subst h0
      refine ⟨0, 0, by simp, ?_, ?_, ?_, ?_, ?_, ?_, ?_⟩
      · rw [flushLoop_zero]
        simp
      · rw [flushLoop_zero]
        simp
      · rw [flushLoop_zero]
        exact hwf
      · rw [flushLoop_zero]
        simp [deliveredOf]
      · rw [flushLoop_zero]
        simp
      · rw [flushLoop_zero]
        exact fun _ => ⟨rfl, rfl⟩
      · rw [flushLoop_zero]
        intro h
        simp at h
    · unfold flushLoop
      rw [dif_neg h0]
      set os := if MEMBUF_CHUNKS < remsiz then MEMBUF_CHUNKS else remsiz
        with hos_def
      have hos1 : 0 < os := by
        rw [hos_def]
        split
        · decide
        · omega
      have hos2 : os ≤ remsiz := by
        rw [hos_def]
        split
        · omega
        · omega
      have hosu : os ≤ f.used := le_trans hos2 hle
      have hrb := fifo_rblock_accept f os hwf hosu
      have hret : (fifo_rblock f os).2.2 = os := by rw [hrb]
      have hout : (fifo_rblock f os).2.1 = (contentsOf f).take os := by
        rw [hrb]
      have hused1 : (fifo_rblock f os).1.used = f.used - os := by rw [hrb]
      have hwf1 : wf (fifo_rblock f os).1 := fifo_rblock_wf f os hwf
      have hcont1 : contentsOf (fifo_rblock f os).1 =
          (contentsOf f).drop os := fifo_rblock_contents f os hwf hosu
      simp only [hret, if_neg (show ¬(os ≠ os) from by simp)]
      by_cases hk : sinkOk k = false
      · simp only [if_pos hk]
        refine ⟨0, os, by omega, ?_, ?_, hwf1, ?_, ?_, ?_, ?_⟩
        · rw [hused1]
          omega
        · rw [hcont1, Nat.zero_add]
        · simp [deliveredOf]
        · simp
        · intro h
          simp at h
        · intro _
          refine ⟨hos1, ⟨k, le_refl k, hk⟩, ⟨[], rfl, by simp⟩⟩
      · simp only [if_neg hk]
        obtain ⟨dl', fl', hA, hB, hC, hD, hE, hF, hG, hH⟩ :=
          ih (remsiz - os) (by omega) (fifo_rblock f os).1 (k + 1) hwf1
            (by rw [hused1]; omega)
        refine ⟨os + dl', fl', by omega, ?_, ?_, hD, ?_, ?_, ?_, ?_⟩
        · rw [hB, hused1]
          omega
        · rw [hC, hcont1, List.drop_drop]
          congr 1
          omega
        · simp only [deliveredOf]
          rw [hout, hE, hcont1, List.take_add]
        · intro hmem
          rcases List.mem_cons.mp hmem with h | h
          · exact absurd h (by simp)
          · exact hF h
        · intro h
          have h2 : Ev.fatalWrite ∉
              (flushLoop sinkOk (fifo_rblock f os).1 (remsiz - os) (k + 1)).2 :=
            fun hm => h (List.mem_cons_of_mem _ hm)
          obtain ⟨hfl, hdl⟩ := hG h2
          exact ⟨hfl, by omega⟩
        · intro h
          have h2 : Ev.fatalWrite ∈
              (flushLoop sinkOk (fifo_rblock f os).1 (remsiz - os) (k + 1)).2 := by
            rcases List.mem_cons.mp h with h | h
            · exact absurd h (by simp)
            · exact h
          obtain ⟨hfl, ⟨j, hj1, hj2⟩, cs', hcs1, hcs2⟩ := hH h2
          refine ⟨hfl, ⟨j, by omega, hj2⟩,
            ⟨Ev.chunk (fifo_rblock f os).2.1 :: cs', ?_, ?_⟩⟩
          · rw [List.cons_append, hcs1]
          · intro e he
            rcases List.mem_cons.mp he with h3 | h3
            · exact ⟨(fifo_rblock f os).2.1, h3⟩
            · exact hcs2 e h3

lemma membuf_flush_ok (f : Fifo) (hwf : wf f) :
    deliveredOf (membuf_flush (fun _ => true) f).2 = contentsOf f ∧
    (membuf_flush (fun _ => true) f).1.used = 0 ∧
    Ev.fatalRead ∉ (membuf_flush (fun _ => true) f).2 ∧
    Ev.fatalWrite ∉ (membuf_flush (fun _ => true) f).2 := by
  obtain ⟨dl, fl, hA, hB, hC, hD, hE, hF, hG, hH⟩ :=
    flushLoop_spec (fun _ => true) f.used f 0 hwf (le_refl _)
  have hnw : Ev.fatalWrite ∉ (flushLoop (fun _ => true) f f.used 0).2 := by
    intro h
    obtain ⟨-, ⟨j, -, hj⟩, -⟩ := hH h
    simp at hj
  obtain ⟨hfl, hdl⟩ := hG hnw
  subst hfl
  subst hdl
  refine ⟨?_, ?_, ?_, ?_⟩
  · show deliveredOf (flushLoop (fun _ => true) f f.used 0).2 = contentsOf f
    rw [hE, ← contentsOf_length f, List.take_length]
  · show (flushLoop (fun _ => true) f f.used 0).1.used = 0
    rw [hB]
    omega
  · exact hF
  · exact hnw

/-- C5 (amended): `membuf_flush` snapshots `fifo_used` into `remsiz` once
and loops on that local counter, moving `min(remaining, MEMBUF_CHUNKS)`
bytes per iteration; when it returns without a fatal error it has
delivered exactly the bytes held at the moment of the snapshot and the
buffer then reports empty — in a sequential execution.  Bytes enqueued
after the snapshot are not drained by that call (see the
counterexample). -/
theorem membuf_flush_drains_snapshot (f : Fifo) (hwf : wf f) :
    deliveredOf (membuf_flush (fun _ => true) f).2 = contentsOf f ∧
    (membuf_flush (fun _ => true) f).1.used = 0 ∧
    Ev.fatalRead ∉ (membuf_flush (fun _ => true) f).2 ∧
    Ev.fatalWrite ∉ (membuf_flush (fun _ => true) f).2 :=
  membuf_flush_ok f hwf

/-- C5 witness: on the wrapped state holding `[11, 12, 13]` the sequential
drain with an always-accepting sink delivers exactly those bytes and
leaves the buffer empty. -/
theorem membuf_flush_drains_snapshot_witness :
    deliveredOf (membuf_flush (fun _ => true)
        ⟨1, 0, 4, 3, fun i => i + 10⟩).2 = [11, 12, 13] ∧
    (membuf_flush (fun _ => true) ⟨1, 0, 4, 3, fun i => i + 10⟩).1.used
      = 0 := by
  obtain ⟨h1, h2, -, -⟩ :=
    membuf_flush_drains_snapshot ⟨1, 0, 4, 3, fun i => i + 10⟩ (by decide)
  refine ⟨?_, h2⟩
  rw [h1]
  decide

/-- C5 counterexample: the drain loop runs on the `remsiz` snapshot, not
on `amount_held()`.  Legal lock-atomic schedule: producer writes byte 1;
the drain reads `fifo_used` (= 1) into `remsiz`; a producer then writes
byte 2; the loop now runs.  It delivers only `[1]` and returns without
any fatal event, yet the buffer still holds 1 byte — the byte enqueued
after the drain began was not delivered, contradicting the claim that on
return the buffer reports empty and all bytes enqueued during the drain
are delivered. -/
theorem membuf_flush_concurrent_enqueue_counterexample :
    (flushLoop (fun _ => true)
        (fifo_wblock (fifo_wblock (init_fifo 8 (fun _ => 0)) [1]).1 [2]).1
        (fifo_used_val (fifo_wblock (init_fifo 8 (fun _ => 0)) [1]).1)
        0).2 = [Ev.chunk [1]] ∧
    (flushLoop (fun _ => true)
        (fifo_wblock (fifo_wblock (init_fifo 8 (fun _ => 0)) [1]).1 [2]).1
        (fifo_used_val (fifo_wblock (init_fifo 8 (fun _ => 0)) [1]).1)
        0).1.used = 1 := by
  have h1 : fifo_used_val (fifo_wblock (init_fifo 8 (fun _ => 0)) [1]).1
      = 1 := by decide
  have h2 : (fifo_rblock
      (fifo_wblock (fifo_wblock (init_fifo 8 (fun _ => 0)) [1]).1 [2]).1
      1).2.2 = 1 := by decide
  have h3 : (fifo_rblock
      (fifo_wblock (fifo_wblock (init_fifo 8 (fun _ => 0)) [1]).1 [2]).1
      1).2.1 = [1] := by decide
  have h4 : (fifo_rblock
      (fifo_wblock (fifo_wblock (init_fifo 8 (fun _ => 0)) [1]).1 [2]).1
      1).1.used = 1 := by decide
  have hstep : flushLoop (fun _ => true)
      (fifo_wblock (fifo_wblock (init_fifo 8 (fun _ => 0)) [1]).1 [2]).1
      1 0 =
      ((fifo_rblock
          (fifo_wblock (fifo_wblock (init_fifo 8 (fun _ => 0)) [1]).1
            [2]).1 1).1,
        [Ev.chunk (fifo_rblock
          (fifo_wblock (fifo_wblock (init_fifo 8 (fun _ => 0)) [1]).1
            [2]).1 1).2.1]) := by
    unfold flushLoop
    norm_num [MEMBUF_CHUNKS, h2, flushLoop_zero]
  rw [h1, hstep, h3, h4]
  exact ⟨rfl, rfl⟩

/-- C10: in a sequential drain from a well-formed state, every
`fifo_rblock` issued by the loop requests at most the bytes then held,
so it returns the full chunk and the fatal "could not read fifo"
branch is unreachable — for every sink behaviour. -/
theorem membuf_flush_no_read_shortfall (f : Fifo) (sinkOk : Nat → Bool)
    (hwf : wf f) : Ev.fatalRead ∉ (membuf_flush sinkOk f).2 := by
  obtain ⟨dl, fl, -, -, -, -, -, hF, -, -⟩ :=
    flushLoop_spec sinkOk f.used f 0 hwf (le_refl _)
  exact hF

/-- C10 witness: concrete drain (capacity 4, three bytes held, failing
sink) produces no read-shortfall diagnostic. -/
theorem membuf_flush_no_read_shortfall_witness :
    Ev.fatalRead ∉
      (membuf_flush (fun _ => false) ⟨1, 0, 4, 3, fun i => i + 10⟩).2 :=
  membuf_flush_no_read_shortfall ⟨1, 0, 4, 3, fun i => i + 10⟩
    (fun _ => false) (by decide)

/-- C8: sink failure aborts the drain.  For every well-formed state and
sink behaviour there are `dl` (bytes delivered) and `fl` (bytes of a
failed chunk) such that: the delivered bytes are the oldest `dl` held;
the fifo afterwards holds exactly the bytes past `dl + fl` (so the `fl`
bytes of the failed chunk were removed from the ring yet never
delivered — lost, not re-enqueued, not reported as held); if the sink
failed, the fatal "fwrite problem" diagnostic is the final event and
nothing follows it (no further fifo reads or sink writes), and `fl > 0`;
if the sink never failed, `fl = 0` and the whole snapshot was
delivered. -/
theorem membuf_flush_sink_failure_aborts (f : Fifo) (sinkOk : Nat → Bool)
    (hwf : wf f) :
    ∃ dl fl,
      deliveredOf (membuf_flush sinkOk f).2 = (contentsOf f).take dl ∧
      contentsOf (membuf_flush sinkOk f).1 =
        (contentsOf f).drop (dl + fl) ∧
      (membuf_flush sinkOk f).1.used = f.used - (dl + fl) ∧
      (Ev.fatalWrite ∈ (membuf_flush sinkOk f).2 →
        0 < fl ∧
        ∃ cs, (membuf_flush sinkOk f).2 = cs ++ [Ev.fatalWrite] ∧
          ∀ e ∈ cs, ∃ b, e = Ev.chunk b) ∧
      (Ev.fatalWrite ∉ (membuf_flush sinkOk f).2 →
        fl = 0 ∧ dl = f.used) := by
  obtain ⟨dl, fl, hA, hB, hC, hD, hE, hF, hG, hH⟩ :=
    flushLoop_spec sinkOk f.used f 0 hwf (le_refl _)
  refine ⟨dl, fl, hE, hC, hB, ?_, hG⟩
  intro h
  obtain ⟨hfl, -, hcs⟩ := hH h
  exact ⟨hfl, hcs⟩

/-- C8 witness: capacity 8 holding `[1, 2, 3]`, sink that always fails:
the theorem's characterization holds at this concrete input. -/
theorem membuf_flush_sink_failure_aborts_witness :
    ∃ dl fl,
      deliveredOf (membuf_flush (fun _ => false)
          ⟨0, 3, 8, 3, fun i => i + 1⟩).2 =
        (contentsOf ⟨0, 3, 8, 3, fun i => i + 1⟩).take dl ∧
      contentsOf (membuf_flush (fun _ => false)
          ⟨0, 3, 8, 3, fun i => i + 1⟩).1 =
        (contentsOf ⟨0, 3, 8, 3, fun i => i + 1⟩).drop (dl + fl) ∧
      (membuf_flush (fun _ => false)
          ⟨0, 3, 8, 3, fun i => i + 1⟩).1.used = 3 - (dl + fl) ∧
      (Ev.fatalWrite ∈ (membuf_flush (fun _ => false)
          ⟨0, 3, 8, 3, fun i => i + 1⟩).2 →
        0 < fl ∧
        ∃ cs, (membuf_flush (fun _ => false)
            ⟨0, 3, 8, 3, fun i => i + 1⟩).2 = cs ++ [Ev.fatalWrite] ∧
          ∀ e ∈ cs, ∃ b, e = Ev.chunk b) ∧
      (Ev.fatalWrite ∉ (membuf_flush (fun _ => false)
          ⟨0, 3, 8, 3, fun i => i + 1⟩).2 →
        fl = 0 ∧ dl = 3) :=
  membuf_flush_sink_failure_aborts ⟨0, 3, 8, 3, fun i => i + 1⟩
    (fun _ => false) (by decide)


/-- C9: the callback attempts exactly one `fifo_wblock` of the whole
message (body plus newline, length `len+1`).  If there is not enough
room the write returns 0 (less than requested): the message is dropped —
the fifo is left unchanged, no retry occurs and no drain is triggered
(no sink events at all).  If the write is accepted, the callback is
exactly a synchronous `membuf_flush` of the post-write state; with an
always-accepting sink this delivers everything held plus the new message
and empties the buffer. -/
theorem custom_output_callback_policy (sinkOk : Nat → Bool) (f : Fifo)
    (msgbody : List Nat) (hwf : wf f) :
    (f.siz - f.used < msgbody.length + 1 →
      custom_output_callback sinkOk f msgbody = (f, [])) ∧
    (msgbody.length + 1 ≤ f.siz - f.used →
      custom_output_callback sinkOk f msgbody =
        membuf_flush sinkOk (fifo_wblock f (msgbody ++ [10])).1 ∧
      deliveredOf (custom_output_callback (fun _ => true) f msgbody).2 =
        contentsOf f ++ msgbody ++ [10] ∧
      (custom_output_callback (fun _ => true) f msgbody).1.used = 0) := by
  have hlen : (msgbody ++ [10]).length = msgbody.length + 1 := by simp
  constructor
  · intro h
    have hrej := fifo_wblock_reject f (msgbody ++ [10]) hwf (by omega)
    unfold custom_output_callback
    simp only [hrej, hlen]
    rw [if_pos (by omega)]
  · intro h
    have hacc := fifo_wblock_accept f (msgbody ++ [10]) hwf (by omega)
    have hwf1 := fifo_wblock_wf f (msgbody ++ [10]) hwf
    have hcont := fifo_wblock_contents f (msgbody ++ [10]) hwf (by omega)
    have heq : ∀ sk : Nat → Bool, custom_output_callback sk f msgbody =
        membuf_flush sk (fifo_wblock f (msgbody ++ [10])).1 := by
      intro sk
      unfold custom_output_callback
      simp only [show (fifo_wblock f (msgbody ++ [10])).2 =
          (msgbody ++ [10]).length from by rw [hacc]]
      rw [if_neg (by simp)]
    obtain ⟨hdel, hemp, -, -⟩ :=
      membuf_flush_ok (fifo_wblock f (msgbody ++ [10])).1 hwf1
    refine ⟨heq sinkOk, ?_, ?_⟩
    · rw [heq (fun _ => true), hdel, hcont, List.append_assoc]
    · rw [heq (fun _ => true), hemp]

/-- C9 witness: on a fresh fifo of capacity 8 a message of body `[65]`
is accepted and fully delivered with the newline; on a full fifo
(capacity 8, `used = 8`) the same message is dropped: state unchanged
and no sink events. -/
theorem custom_output_callback_policy_witness :
    deliveredOf (custom_output_callback (fun _ => true)
        (init_fifo 8 (fun _ => 0)) [65]).2 = [65, 10] ∧
    custom_output_callback (fun _ => true) ⟨0, 0, 8, 8, fun _ => 0⟩ [65]
      = (⟨0, 0, 8, 8, fun _ => 0⟩, []) := by
  constructor
  · obtain ⟨-, hdel, -⟩ :=
      (custom_output_callback_policy (fun _ => true)
        (init_fifo 8 (fun _ => 0)) [65] (by decide)).2 (by decide)
    rw [hdel]
    decide
  · exact (custom_output_callback_policy (fun _ => true)
      ⟨0, 0, 8, 8, fun _ => 0⟩ [65] (by decide)).1 (by decide)


/-- C6 (code bug): `fifo_used` does NOT release the lock before
returning — its `diag_os_unlock` is unreachable dead code after
`return fifo->used`, so starting from a free lock the mutex is still
held (count 1) when `fifo_used` returns; `fifo_wblock` and
`fifo_rblock`, by contrast, do release it on their exit paths (count
back to 0), on both the accept and the reject path. -/
theorem fifo_used_leaks_lock :
    (fifo_used_L ⟨0, init_fifo 8 (fun _ => 0)⟩).1.lock = 1 ∧
    (fifo_wblock_L ⟨0, init_fifo 8 (fun _ => 0)⟩ [1]).1.lock = 0 ∧
    (fifo_rblock_L ⟨0, init_fifo 8 (fun _ => 0)⟩ 5).1.lock = 0 ∧
    (fifo_rblock_L ⟨0, init_fifo 8 (fun _ => 0)⟩ 0).1.lock = 0 := by
  refine ⟨rfl, rfl, rfl, rfl⟩


/-- C7 counterexample: at capacity 0 the spec-modelled constructor
fails, but the code's `init_fifo` performs no validation whatsoever: it
returns a fully initialized buffer and has no error path at all (its
result type is a plain `Fifo`, not an `Option`). -/
theorem init_fifo_no_validation_counterexample :
    init_fifo_spec 0 0 (fun _ => 0) = none ∧
    init_fifo 0 (fun _ => 0) =
      { rp := 0, wp := 0, siz := 0, used := 0, data := fun _ => 0 } :=
  ⟨rfl, rfl⟩

/-- C7 (amended): `init_fifo` performs no validation and cannot fail:
for every capacity — including zero — and any storage it initializes
`read_pos = write_pos = used = 0` and records the given capacity and
storage; on the inputs the spec calls valid (`capacity > 0`, storage
length equal to capacity) it agrees with the spec-modelled
constructor. -/
theorem init_fifo_amended (siz : Nat) (buf : Nat → Nat) :
    (init_fifo siz buf).rp = 0 ∧ (init_fifo siz buf).wp = 0 ∧
    (init_fifo siz buf).used = 0 ∧ (init_fifo siz buf).siz = siz ∧
    (init_fifo siz buf).data = buf ∧
    (0 < siz → init_fifo_spec siz siz buf = some (init_fifo siz buf)) := by
  refine ⟨rfl, rfl, rfl, rfl, rfl, ?_⟩
  intro h
  unfold init_fifo_spec
  have hcond : ¬(siz = 0 ∨ siz ≠ siz) := by
    rintro (h1 | h2)
    · omega
    · exact h2 rfl
  rw [if_neg hcond]

/-- C7 witness: at capacity 4 the fields are zero-initialized and the
spec-modelled constructor agrees with the code. -/
theorem init_fifo_amended_witness :
    (init_fifo 4 (fun _ => 0)).rp = 0 ∧
    (init_fifo 4 (fun _ => 0)).wp = 0 ∧
    (init_fifo 4 (fun _ => 0)).used = 0 ∧
    (init_fifo 4 (fun _ => 0)).siz = 4 ∧
    (init_fifo 4 (fun _ => 0)).data = (fun _ => 0) ∧
    (0 < 4 → init_fifo_spec 4 4 (fun _ => 0) =
      some (init_fifo 4 (fun _ => 0))) :=
  init_fifo_amended 4 (fun _ => 0)
